import Mathlib

/-!
Verification development for the archive-processing chat bot in `main.py`.

The Python source is shallowly embedded: paths and tokens are `String`,
the filesystem visible to the pipeline is the list of existing file paths,
and external effects (the key-fetch HTTP response, the archive download,
the extraction result, and the outcome of each `os.rename`) are supplied
by an explicit environment so that every control-flow path of the source
is a value of the embedded functions.
-/

/-- Boolean test that `pre` is a leading segment of `s` (character lists). -/
def startsWithL : List Char → List Char → Bool
  | [], _ => true
  | _ :: _, [] => false
  | a :: as, b :: bs => a == b && startsWithL as bs

/-- Boolean test that `suf` is a trailing segment of `s` (character lists). -/
def endsWithL (suf s : List Char) : Bool :=
  startsWithL suf.reverse s.reverse

/-- Embeds Python `s.endswith(suffix)`. -/
def pyEndsWith (s suffix : String) : Bool :=
  endsWithL suffix.data s.data

/-- Embeds Python `s.startswith(pre)`. -/
def pyStartsWith (s pre : String) : Bool :=
  startsWithL pre.data s.data

/-- A whitespace character in the sense of Python `str.strip`. -/
def isPySpace (c : Char) : Bool :=
  c == ' ' || c == '\t' || c == '\n' || c == '\r' || c == '\x0b' || c == '\x0c'

/-- Embeds Python `s.strip()`: removes leading and trailing whitespace. -/
def pyStrip (s : String) : String :=
  String.mk (((s.data.dropWhile isPySpace).reverse.dropWhile isPySpace).reverse)

/-- Embeds Python `s.split(".")` (single-character separator). -/
def splitOnDot : List Char → List (List Char)
  | [] => [[]]
  | c :: rest =>
    match splitOnDot rest, c == '.' with
    | gs, true => [] :: gs
    | [], false => [[c]]
    | g :: gs, false => (c :: g) :: gs

/-- The marker extension `".tsa"` as a character list. -/
def tsaL : List Char := ['.', 't', 's', 'a']

/-- The target extension `".mp4"` as a character list. -/
def mp4L : List Char := ['.', 'm', 'p', '4']

/-- Embeds Python `s.replace(".tsa", ".mp4")`: scans left to right and
replaces every non-overlapping occurrence of `".tsa"` by `".mp4"`. -/
def tsaToMp4 : List Char → List Char
  | '.' :: 't' :: 's' :: 'a' :: rest => '.' :: 'm' :: 'p' :: '4' :: tsaToMp4 rest
  | c :: rest => c :: tsaToMp4 rest
  | [] => []

/-- Embeds `filepath.replace(".tsa", ".mp4")` on `String`. -/
def pyReplaceTsaMp4 (s : String) : String :=
  String.mk (tsaToMp4 s.data)

/-- Embeds `os.path.join(a, b)` for a relative second component. -/
def joinPath (a b : String) : String :=
  String.mk (a.data ++ '/' :: b.data)

/-- A path lies strictly inside directory `td` (it extends `td ++ "/"`). -/
def isUnder (td p : String) : Bool :=
  startsWithL (td.data ++ ['/']) p.data

/-- Effect of `shutil.rmtree(td)` on the set of existing files, as run by
`tempfile.TemporaryDirectory.__exit__`: every path inside `td` disappears. -/
def fsCleanTemp (td : String) (fs : List String) : List String :=
  fs.filter (fun p => !(isUnder td p))

/-- Effect of a successful `os.rename(src, dst)` on the set of existing files. -/
def fsRename (fs : List String) (src dst : String) : List String :=
  dst :: fs.erase src

/-- A lowercase hexadecimal character, `[a-f0-9]`. -/
def isLowerHexDigit (c : Char) : Bool :=
  ('a' ≤ c && c ≤ 'f') || ('0' ≤ c && c ≤ '9')

/-- The literal part `"encrypted-"` of the pattern in `get_hls_key`. -/
def encMarker : List Char := ['e', 'n', 'c', 'r', 'y', 'p', 't', 'e', 'd', '-']

/-- Longest leading run of lowercase hexadecimal characters; models the
greedy `[a-f0-9]+` part of the regex. -/
def hexRun : List Char → List Char
  | [] => []
  | c :: rest => if isLowerHexDigit c then c :: hexRun rest else []

/-- Whether the regex `encrypted-([a-f0-9]+)` matches at the start of `s`;
on success returns the full match (`match.group(0)`). -/
def matchEncryptedAt (s : List Char) : Option (List Char) :=
  if startsWithL encMarker s then
    match hexRun (s.drop 10) with
    | [] => none
    | run => some (encMarker ++ run)
  else none

/-- Embeds `re.search(r"encrypted-([a-f0-9]+)", s)` followed by `.group(0)`:
the match at the leftmost position where the pattern matches. -/
def searchEncrypted : List Char → Option (List Char)
  | [] => none
  | c :: rest =>
    match matchEncryptedAt (c :: rest) with
    | some m => some m
    | none => searchEncrypted rest

/-- The upstream response to the key-fetch POST: HTTP status and the `key`
field of the parsed JSON body (absent when the body has no such field). -/
structure HttpResp where
  status : Nat
  keyField : Option String
deriving Repr

/-- Failure kinds of the Key Resolver (`get_hls_key` raises `ValueError`,
`ClientResponseError` via `raise_for_status`, or `KeyError`). -/
inductive KeyErr where
  | malformedUrl
  | upstreamError
  | missingKey
deriving DecidableEq, Repr

/-- A network request issued by the pipeline. -/
inductive NetCall where
  | keyFetch (encryptionId : String) (authorization : String)
  | archiveGet (url : String)
deriving DecidableEq, Repr

deriving instance DecidableEq for Except

/-- Embeds `get_hls_key(zipurl, vercel_api_token)` against a fixed upstream
response `resp`; returns the outcome together with the list of HTTP calls
issued. The id extraction happens before any network call; the POST is
issued before the status and body of the response are inspected. -/
def get_hls_key (resp : HttpResp) (zipurl : String) (vercel_api_token : String) :
    Except KeyErr String × List NetCall :=
  match searchEncrypted zipurl.data with
  | none => (Except.error KeyErr.malformedUrl, [])
  | some m =>
    let encryption_id := String.mk m
    let calls := [NetCall.keyFetch encryption_id vercel_api_token]
    if 400 ≤ resp.status then (Except.error KeyErr.upstreamError, calls)
    else
      match resp.keyField with
      | none => (Except.error KeyErr.missingKey, calls)
      | some key => if key = "" then (Except.error KeyErr.missingKey, calls) else (Except.ok key, calls)

/-- One directory yielded by `os.walk` of the extraction root, identified by
its path components relative to that root (`[]` is the root itself),
together with the names of the regular files it contains. The expanded
archive is modelled by this listing, which is what the source iterates. -/
structure WalkDir where
  relPath : List String
  files : List String
deriving Repr

/-- Absolute directory path of a walked directory. -/
def wdRoot (extractedPath : String) (rel : List String) : String :=
  rel.foldl joinPath extractedPath

/-- Embeds `any(file.endswith(ext) for ext in exts)`. -/
def matchesExt (exts : List String) (name : String) : Bool :=
  exts.any (fun e => pyEndsWith name e)

/-- Embeds the inner loop of the Segment Locator: for one walked directory
`root` with file names `files`, the joined paths of the matching files. -/
def collectDir (exts : List String) (root : String) : List String → List String
  | [] => []
  | f :: fl =>
    if matchesExt exts f then joinPath root f :: collectDir exts root fl
    else collectDir exts root fl

/-- Embeds the Segment Locator loop of `process_appx_zip_logic`
(lines 119 to 124): walk the listing and collect matching files. -/
def locateFromWalk (exts : List String) : List (String × List String) → List String
  | [] => []
  | (root, files) :: rest => collectDir exts root files ++ locateFromWalk exts rest

/-- All (directory, file name) pairs of a walk listing: the regular files
under the walk root at any depth. Used to state what the locator returns. -/
def walkNamedFiles (w : List (String × List String)) : List (String × String) :=
  w.flatMap (fun rf => rf.2.map (fun f => (rf.1, f)))

/-- Embeds `decrypt_files_placeholder(segment_files, hls_key)` together with
its filesystem effect. `renameOk src dst` is the outcome the operating
system gives the `os.rename(src, dst)` call; on failure the `OSError` is
caught and the original path is kept. Returns the list the function
returns and the resulting set of existing files. -/
def decrypt_files_placeholder (renameOk : String → String → Bool)
    (segment_files : List String) (hls_key : String) (fs : List String) :
    List String × List String :=
  match segment_files with
  | [] => ([], fs)
  | filepath :: rest =>
    if pyEndsWith filepath ".tsa" then
      let decrypted := pyReplaceTsaMp4 filepath
      if renameOk filepath decrypted then
        let r := decrypt_files_placeholder renameOk rest hls_key (fsRename fs filepath decrypted)
        (decrypted :: r.1, r.2)
      else
        let r := decrypt_files_placeholder renameOk rest hls_key fs
        (filepath :: r.1, r.2)
    else
      let r := decrypt_files_placeholder renameOk rest hls_key fs
      (filepath :: r.1, r.2)

/-- External nondeterminism of one pipeline run: the upstream key response,
the fresh name `tempfile.TemporaryDirectory` picks, whether the archive
download succeeds, the walk listing of the extracted archive (`none` means
extraction raised), and the outcome of each rename. -/
structure Env where
  resp : HttpResp
  tempDir : String
  downloadOk : Bool
  extractResult : Option (List WalkDir)
  renameOk : String → String → Bool

/-- Embeds `process_appx_zip_logic(zipurl)` under environment `env`, with
the process-wide `VERCEL_API_TOKEN` passed explicitly and the set of
existing files threaded through. Returns the value the coroutine returns,
the network calls issued, and the final set of existing files. Every exit
that happens after the `with tempfile.TemporaryDirectory()` block was
entered removes the temporary tree (success or exception); the outer
`except` turns any stage failure into `None`. -/
def process_appx_zip_logic (env : Env) (token : Option String) (zipurl : String)
    (fs : List String) : Option String × List NetCall × List String :=
  match token with
  | none => (none, [], fs)
  | some tok =>
    if tok = "" then (none, [], fs)
    else
      match get_hls_key env.resp zipurl tok with
      | (Except.error _, calls) => (none, calls, fs)
      | (Except.ok hls_key, calls) =>
        let temp_dir := env.tempDir
        let zip_file_path := joinPath temp_dir "downloaded.zip"
        let extracted_path := joinPath temp_dir "extracted"
        let calls2 := calls ++ [NetCall.archiveGet zipurl]
        if env.downloadOk = false then (none, calls2, fsCleanTemp temp_dir fs)
        else
          let fs1 := zip_file_path :: fs
          match env.extractResult with
          | none => (none, calls2, fsCleanTemp temp_dir fs1)
          | some wdl =>
            let walk := wdl.map (fun wd => (wdRoot extracted_path wd.relPath, wd.files))
            let fs2 := fs1 ++ walk.flatMap (fun rf => rf.2.map (fun f => joinPath rf.1 f))
            let segment_files := locateFromWalk [".tsa"] walk
            let fs3 :=
              if segment_files.isEmpty then fs2
              else (decrypt_files_placeholder env.renameOk segment_files hls_key fs2).2
            let output_mkv_path := joinPath extracted_path "simulated_output.mkv"
            (some output_mkv_path, calls2, fsCleanTemp temp_dir (output_mkv_path :: fs3))

/-- Messages the bot sends back to the chat. -/
inductive Reply where
  | promptToken
  | rejectToken
  | confirmToken
  | askUrl
  | noToken
  | badUrl
  | processing
  | document (path : String)
  | failure
deriving DecidableEq, Repr

/-- Embeds `set_api_token_handler`: given the stored `VERCEL_API_TOKEN` and
`command.args`, returns the new stored token and the reply sent. -/
def set_api_token_handler (token : Option String) (args : Option String) :
    Option String × Reply :=
  match args with
  | none => (token, Reply.promptToken)
  | some a =>
    if a = "" then (token, Reply.promptToken)
    else if (splitOnDot a.data).length ≠ 3 then (token, Reply.rejectToken)
    else (some (pyStrip a), Reply.confirmToken)

/-- Embeds `download_command_handler`: validates the argument, runs the
pipeline, and on a produced path that still exists sends it as a document
and deletes it (`os.remove` in the `finally` block); otherwise replies
with the generic failure notice. Returns the replies sent in order and
the final set of existing files. -/
def download_command_handler (env : Env) (token : Option String)
    (args : Option String) (fs : List String) : List Reply × List String :=
  match args with
  | none => ([Reply.askUrl], fs)
  | some a =>
    if a = "" then ([Reply.askUrl], fs)
    else if token = none ∨ token = some "" then ([Reply.noToken], fs)
    else
      let zip_url := pyStrip a
      if !((pyStartsWith zip_url "http://" || pyStartsWith zip_url "https://") && pyEndsWith zip_url ".zip")
      then ([Reply.badUrl], fs)
      else
        match process_appx_zip_logic env token zip_url fs with
        | (some output_mkv_path, _, fs2) =>
          if output_mkv_path ∈ fs2 then
            ([Reply.processing, Reply.document output_mkv_path], fs2.erase output_mkv_path)
          else ([Reply.processing, Reply.failure], fs2)
        | (none, _, fs2) => ([Reply.processing, Reply.failure], fs2)

/-- Modelled from the spec words for claim C3: the output path is the input
path with the final marker extension `".tsa"` swapped for `".mp4"`, the
rest of the path unchanged. Stated only to be compared with the behavior
of `decrypt_files_placeholder`. -/
def specSwapExt (p : String) : String :=
  String.mk (p.data.take (p.data.length - 4) ++ mp4L)

/-- A concrete run environment matching the end-to-end scenario of the spec:
key fetch succeeds with key `"abc123"`, the archive holds `seg1.tsa`,
`seg2.tsa` and `notes.txt`, and every rename succeeds. -/
def envOk : Env :=
  ⟨⟨200, some "abc123"⟩, "/tmp/tmpw1", true,
    some [⟨[], ["seg1.tsa", "seg2.tsa", "notes.txt"]⟩], fun _ _ => true⟩

/-- A concrete run environment whose archive holds no segment files. -/
def envEmptySeg : Env :=
  ⟨⟨200, some "abc123"⟩, "/tmp/tmpw2", true, some [⟨[], ["notes.txt"]⟩], fun _ _ => true⟩

/-- The source URL of the end-to-end scenario. -/
def urlOk : String := "https://host/archive-encrypted-deadbeef.zip"

theorem startsWithL_iff (a : List Char) : ∀ (s : List Char),
    startsWithL a s = true ↔ ∃ t, s = a ++ t := by
  induction a with
  | nil =>
    intro s
    simp only [startsWithL, List.nil_append, true_iff]
    exact ⟨s, rfl⟩
  | cons x xs ih =>
    intro s
    cases s with
    | nil =>
      simp [startsWithL]
    | cons y ys =>
      simp only [startsWithL, Bool.and_eq_true, beq_iff_eq, ih ys, List.cons_append,
        List.cons.injEq]
      constructor
      · rintro ⟨rfl, t, rfl⟩
        exact ⟨t, rfl, rfl⟩
      · rintro ⟨t, rfl, rfl⟩
        exact ⟨rfl, t, rfl⟩

theorem pyEndsWith_iff (s suf : String) :
    pyEndsWith s suf = true ↔ ∃ u, s.data = u ++ suf.data := by
  unfold pyEndsWith endsWithL
  rw [startsWithL_iff]
  constructor
  · rintro ⟨t, ht⟩
    refine ⟨t.reverse, ?_⟩
    have h2 := congrArg List.reverse ht
    simpa using h2
  · rintro ⟨u, hu⟩
    refine ⟨u.reverse, ?_⟩
    rw [hu]
    simp

theorem tsa_mp4_path_ne (p q : String) (hp : pyEndsWith p ".tsa" = true)
    (hq : pyEndsWith q ".mp4" = true) : p ≠ q := by
  intro h
  subst h
  rw [pyEndsWith_iff] at hp hq
  obtain ⟨u, hu⟩ := hp
  obtain ⟨v, hv⟩ := hq
  rw [hu] at hv
  have hlen : u.length = v.length := by
    have h2 := congrArg List.length hv
    simp at h2
    omega
  have h3 := List.append_inj_right hv hlen
  exact absurd h3 (by decide)

theorem tsaToMp4_nomatch (c : Char) (cs : List Char)
    (h : startsWithL tsaL (c :: cs) = false) :
    tsaToMp4 (c :: cs) = c :: tsaToMp4 cs := by
  rw [tsaToMp4.eq_def]
  split
  · rename_i rest heq
    exfalso
    injection heq with hc hcs
    subst hc
    subst hcs
    simp [startsWithL, tsaL] at h
  · rename_i c2 rest2 hne heq
    injection heq with h1 h2
    rw [h1, h2]
  · rename_i heq
    exact absurd heq (by simp)

theorem tsaToMp4_append_tsa_aux : ∀ (n : Nat) (u : List Char), u.length ≤ n →
    ∃ v, tsaToMp4 (u ++ tsaL) = v ++ mp4L := by
  intro n
  induction n with
  | zero =>
    intro u hu
    have h0 : u = [] := List.eq_nil_of_length_eq_zero (Nat.le_zero.mp hu)
    subst h0
    exact ⟨[], by decide⟩
  | succ n ih =>
    intro u hu
    cases u with
    | nil => exact ⟨[], by decide⟩
    | cons c u2 =>
      rw [List.cons_append]
      by_cases hp : startsWithL tsaL (c :: (u2 ++ tsaL)) = true
      · rcases u2 with _ | ⟨x, (_ | ⟨y, (_ | ⟨z, u3⟩)⟩)⟩
        · simp only [List.nil_append, tsaL, startsWithL, Bool.and_eq_true, beq_iff_eq] at hp
          exact absurd hp.2.1 (by decide)
        · simp only [List.cons_append, List.nil_append, tsaL, startsWithL, Bool.and_eq_true,
            beq_iff_eq] at hp
          exact absurd hp.2.2.1 (by decide)
        · simp only [List.cons_append, List.nil_append, tsaL, startsWithL, Bool.and_eq_true,
            beq_iff_eq] at hp
          exact absurd hp.2.2.2.1 (by decide)
        · simp only [List.cons_append, tsaL, startsWithL, Bool.and_eq_true, beq_iff_eq] at hp
          obtain ⟨hc, hx, hy, hz, -⟩ := hp
          subst hc; subst hx; subst hy; subst hz
          simp only [List.cons_append]
          have hstep : tsaToMp4 ('.' :: 't' :: 's' :: 'a' :: (u3 ++ tsaL)) =
              '.' :: 'm' :: 'p' :: '4' :: tsaToMp4 (u3 ++ tsaL) := rfl
          rw [hstep]
          obtain ⟨v, hv⟩ := ih u3 (by simp at hu; omega)
          exact ⟨'.' :: 'm' :: 'p' :: '4' :: v, by rw [hv]; simp⟩
      · rw [Bool.not_eq_true] at hp
        rw [tsaToMp4_nomatch c (u2 ++ tsaL) hp]
        obtain ⟨v, hv⟩ := ih u2 (by simp at hu; omega)
        exact ⟨c :: v, by rw [hv, List.cons_append]⟩

theorem tsaToMp4_append_tsa (u : List Char) :
    ∃ v, tsaToMp4 (u ++ tsaL) = v ++ mp4L :=
  tsaToMp4_append_tsa_aux u.length u (Nat.le_refl _)

theorem pyReplaceTsaMp4_endsWith (p : String) (h : pyEndsWith p ".tsa" = true) :
    pyEndsWith (pyReplaceTsaMp4 p) ".mp4" = true := by
  have htsa : (".tsa" : String).data = tsaL := by decide
  have hmp4 : (".mp4" : String).data = mp4L := by decide
  rw [pyEndsWith_iff] at h ⊢
  obtain ⟨u, hu⟩ := h
  rw [htsa] at hu
  obtain ⟨v, hv⟩ := tsaToMp4_append_tsa u
  refine ⟨v, ?_⟩
  show tsaToMp4 p.data = v ++ (".mp4" : String).data
  rw [hu, hv, hmp4]

theorem decrypt_fst (ro : String → String → Bool) :
    ∀ (paths : List String) (key : String) (fs : List String),
    (decrypt_files_placeholder ro paths key fs).1 =
      paths.map (fun p =>
        if pyEndsWith p ".tsa" && ro p (pyReplaceTsaMp4 p) then pyReplaceTsaMp4 p else p) := by
  intro paths
  induction paths with
  | nil => intro key fs; rfl
  | cons p rest ih =>
    intro key fs
    by_cases h1 : pyEndsWith p ".tsa" = true
    · by_cases h2 : ro p (pyReplaceTsaMp4 p) = true
      · simp [decrypt_files_placeholder, h1, h2, ih]
      · rw [Bool.not_eq_true] at h2
        simp [decrypt_files_placeholder, h1, h2, ih]
    · rw [Bool.not_eq_true] at h1
      simp [decrypt_files_placeholder, h1, ih]

theorem decrypt_snd_mem (ro : String → String → Bool) :
    ∀ (paths : List String) (key : String) (fs : List String) (x : String),
    x ∈ fs → pyEndsWith x ".tsa" = false →
    x ∈ (decrypt_files_placeholder ro paths key fs).2 := by
  intro paths
  induction paths with
  | nil => intro key fs x hx _; exact hx
  | cons p rest ih =>
    intro key fs x hx hxe
    by_cases h1 : pyEndsWith p ".tsa" = true
    · by_cases h2 : ro p (pyReplaceTsaMp4 p) = true
      · simp only [decrypt_files_placeholder, h1, h2, if_true]
        refine ih key _ x ?_ hxe
        have hxp : x ≠ p := by
          intro h
          rw [h, h1] at hxe
          simp at hxe
        exact List.mem_cons_of_mem _ ((List.mem_erase_of_ne hxp).mpr hx)
      · rw [Bool.not_eq_true] at h2
        simp only [decrypt_files_placeholder, h1, h2, if_true, Bool.false_eq_true, if_false]
        exact ih key fs x hx hxe
    · rw [Bool.not_eq_true] at h1
      simp only [decrypt_files_placeholder, h1, Bool.false_eq_true, if_false]
      exact ih key fs x hx hxe

theorem decrypt_removed (ro : String → String → Bool) :
    ∀ (paths : List String) (key : String) (fs : List String) (x : String),
    (∀ p ∈ paths, pyEndsWith p ".tsa" = true) →
    (∀ p ∈ paths, ro p (pyReplaceTsaMp4 p) = true) →
    pyEndsWith x ".tsa" = true →
    (x ∈ paths ∨ x ∉ fs) → List.count x fs ≤ 1 →
    x ∉ (decrypt_files_placeholder ro paths key fs).2 := by
  intro paths
  induction paths with
  | nil =>
    intro key fs x _ _ _ hd hc
    cases hd with
    | inl h => exact absurd h (List.not_mem_nil x)
    | inr h => exact h
  | cons p rest ih =>
    intro key fs x hall hok hx hd hc
    have hpt : pyEndsWith p ".tsa" = true := hall p (List.mem_cons_self p rest)
    have hpo : ro p (pyReplaceTsaMp4 p) = true := hok p (List.mem_cons_self p rest)
    have hdm : pyEndsWith (pyReplaceTsaMp4 p) ".mp4" = true := pyReplaceTsaMp4_endsWith p hpt
    have hxd : x ≠ pyReplaceTsaMp4 p := tsa_mp4_path_ne x (pyReplaceTsaMp4 p) hx hdm
    simp only [decrypt_files_placeholder, hpt, hpo, if_true]
    have hall2 : ∀ q ∈ rest, pyEndsWith q ".tsa" = true :=
      fun q hq => hall q (List.mem_cons_of_mem p hq)
    have hok2 : ∀ q ∈ rest, ro q (pyReplaceTsaMp4 q) = true :=
      fun q hq => hok q (List.mem_cons_of_mem p hq)
    by_cases hxp : x = p
    · subst hxp
      refine ih key _ x hall2 hok2 hx (Or.inr ?_) ?_
      · intro hmem
        rcases List.mem_cons.mp hmem with h | h
        · exact hxd h
        · have h1 : List.count x (fs.erase x) = List.count x fs - 1 := List.count_erase_self x fs
          have h2 : 0 < List.count x (fs.erase x) := List.count_pos_iff.mpr h
          omega
      · unfold fsRename
        rw [List.count_cons_of_ne hxd]
        have h3 : List.count x (fs.erase x) ≤ List.count x fs :=
          (List.erase_sublist x fs).count_le x
        omega
    · have hd2 : x ∈ rest ∨ x ∉ fsRename fs p (pyReplaceTsaMp4 p) := by
        cases hd with
        | inl h =>
          rcases List.mem_cons.mp h with h | h
          · exact absurd h hxp
          · exact Or.inl h
        | inr h =>
          refine Or.inr ?_
          intro hmem
          rcases List.mem_cons.mp hmem with h2 | h2
          · exact hxd h2
          · exact h ((List.erase_sublist p fs).mem h2)
      refine ih key _ x hall2 hok2 hx hd2 ?_
      unfold fsRename
      rw [List.count_cons_of_ne hxd]
      have h3 : List.count x (fs.erase p) ≤ List.count x fs :=
        (List.erase_sublist p fs).count_le x
      omega

theorem searchEncrypted_eq_none : ∀ (s : List Char),
    (∀ i, i ≤ s.length → matchEncryptedAt (s.drop i) = none) →
    searchEncrypted s = none := by
  intro s
  induction s with
  | nil => intro _; rfl
  | cons c rest ih =>
    intro h
    have h0 : matchEncryptedAt (c :: rest) = none := h 0 (Nat.zero_le _)
    simp only [searchEncrypted, h0]
    refine ih ?_
    intro i hi
    have h1 := h (i + 1) (by simp; omega)
    simpa using h1

theorem searchEncrypted_first : ∀ (s m : List Char), searchEncrypted s = some m →
    ∃ i, matchEncryptedAt (s.drop i) = some m ∧
      ∀ j, j < i → matchEncryptedAt (s.drop j) = none := by
  intro s
  induction s with
  | nil => intro m h; simp [searchEncrypted] at h
  | cons c rest ih =>
    intro m h
    cases h0 : matchEncryptedAt (c :: rest) with
    | some m0 =>
      have hm : m0 = m := by
        simp only [searchEncrypted, h0] at h
        exact Option.some.inj h
      subst hm
      exact ⟨0, h0, fun j hj => absurd hj (Nat.not_lt_zero j)⟩
    | none =>
      have h2 : searchEncrypted rest = some m := by
        simpa only [searchEncrypted, h0] using h
      obtain ⟨i, hmz, hmin⟩ := ih m h2
      refine ⟨i + 1, by simpa using hmz, ?_⟩
      intro j hj
      cases j with
      | zero => simpa using h0
      | succ j2 =>
        have h3 := hmin j2 (by omega)
        simpa using h3

theorem isUnder_joinPath_self (td x : String) : isUnder td (joinPath td x) = true := by
  unfold isUnder joinPath
  rw [startsWithL_iff]
  exact ⟨x.data, by simp⟩

theorem isUnder_joinPath (td r x : String) (h : isUnder td r = true) :
    isUnder td (joinPath r x) = true := by
  unfold isUnder at h ⊢
  unfold joinPath
  rw [startsWithL_iff] at h ⊢
  obtain ⟨t, ht⟩ := h
  exact ⟨t ++ '/' :: x.data, by simp [ht]⟩

theorem isUnder_wdRoot (td : String) (rel : List String) :
    ∀ (start : String), isUnder td start = true →
    isUnder td (wdRoot start rel) = true := by
  induction rel with
  | nil => intro start h; exact h
  | cons a rest ih =>
    intro start h
    exact ih (joinPath start a) (isUnder_joinPath td start a h)

theorem fsCleanTemp_not_under (td : String) (fs : List String) :
    ∀ p ∈ fsCleanTemp td fs, isUnder td p = false := by
  intro p hp
  unfold fsCleanTemp at hp
  rw [List.mem_filter] at hp
  simpa using hp.2

theorem collectDir_eq (exts : List String) (root : String) :
    ∀ (files : List String), collectDir exts root files =
      (files.map (fun f => (root, f))).filterMap
        (fun rn => if matchesExt exts rn.2 then some (joinPath rn.1 rn.2) else none) := by
  intro files
  induction files with
  | nil => rfl
  | cons f fl ih =>
    by_cases h : matchesExt exts f = true
    · simp [collectDir, h, ih]
    · rw [Bool.not_eq_true] at h
      simp [collectDir, h, ih]

theorem length_filterMap_guard {α β : Type} (p : α → Bool) (g : α → β) :
    ∀ (l : List α),
    (l.filterMap (fun a => if p a then some (g a) else none)).length = l.countP p := by
  intro l
  induction l with
  | nil => rfl
  | cons a rest ih =>
    by_cases h : p a = true
    · simp [List.filterMap_cons, h, ih, List.countP_cons]
    · rw [Bool.not_eq_true] at h
      simp [List.filterMap_cons, h, ih, List.countP_cons]

/-- C4 For every sourceUrl with no substring matching `encrypted-` followed by
one or more lowercase-hex characters, `get_hls_key` fails with the
malformed-url error and issues no HTTP call; when such a substring exists,
the extracted encryption id is the match at the first occurrence, and the
single key-fetch call carries it. -/
theorem C4_key_resolver_extraction (url tok : String) (resp : HttpResp) :
    ((∀ i, i ≤ url.data.length → matchEncryptedAt (url.data.drop i) = none) →
      get_hls_key resp url tok = (Except.error KeyErr.malformedUrl, [])) ∧
    (∀ m, searchEncrypted url.data = some m →
      (∃ i, matchEncryptedAt (url.data.drop i) = some m ∧
        ∀ j, j < i → matchEncryptedAt (url.data.drop j) = none) ∧
      (get_hls_key resp url tok).2 = [NetCall.keyFetch (String.mk m) tok]) := by
  constructor
  · intro h
    have hs : searchEncrypted url.data = none := searchEncrypted_eq_none url.data h
    simp [get_hls_key, hs]
  · intro m hm
    refine ⟨searchEncrypted_first url.data m hm, ?_⟩
    simp only [get_hls_key, hm]
    split
    · rfl
    · split
      · rfl
      · split
        · rfl
        · rfl

theorem C4_witness :
    get_hls_key ⟨200, some "abc123"⟩ "https://host/plain.zip" "a.b.c" =
      (Except.error KeyErr.malformedUrl, []) ∧
    ((∃ i, matchEncryptedAt (urlOk.data.drop i) = some ("encrypted-deadbeef".data) ∧
        ∀ j, j < i → matchEncryptedAt (urlOk.data.drop j) = none) ∧
      (get_hls_key ⟨200, some "abc123"⟩ urlOk "a.b.c").2 =
        [NetCall.keyFetch (String.mk "encrypted-deadbeef".data) "a.b.c"]) :=
  ⟨(C4_key_resolver_extraction "https://host/plain.zip" "a.b.c" ⟨200, some "abc123"⟩).1
      (by decide),
   (C4_key_resolver_extraction urlOk "a.b.c" ⟨200, some "abc123"⟩).2
      "encrypted-deadbeef".data (by decide)⟩

/-- C5 For every upstream response to the key-fetch POST (the URL having
matched, so the POST was issued): failure status gives the upstream error,
success status with an absent or empty key field gives the missing-key
error, and otherwise the key value is returned. -/
theorem C5_key_resolver_response (url tok : String) (resp : HttpResp) (m : List Char)
    (hm : searchEncrypted url.data = some m) :
    (400 ≤ resp.status → (get_hls_key resp url tok).1 = Except.error KeyErr.upstreamError) ∧
    (resp.status < 400 → (resp.keyField = none ∨ resp.keyField = some "") →
      (get_hls_key resp url tok).1 = Except.error KeyErr.missingKey) ∧
    (∀ k, resp.status < 400 → resp.keyField = some k → k ≠ "" →
      (get_hls_key resp url tok).1 = Except.ok k) := by
  refine ⟨?_, ?_, ?_⟩
  · intro h
    simp only [get_hls_key, hm]
    rw [if_pos h]
  · intro h1 h2
    have hn : ¬(400 ≤ resp.status) := by omega
    cases h2 with
    | inl h3 => simp only [get_hls_key, hm, h3]; rw [if_neg hn]
    | inr h3 => simp only [get_hls_key, hm, h3]; rw [if_neg hn]; simp
  · intro k h1 h2 h3
    have hn : ¬(400 ≤ resp.status) := by omega
    simp only [get_hls_key, hm, h2]
    rw [if_neg hn]
    simp [h3]

theorem C5_witness :
    (get_hls_key ⟨404, some "abc123"⟩ urlOk "a.b.c").1 = Except.error KeyErr.upstreamError ∧
    (get_hls_key ⟨200, none⟩ urlOk "a.b.c").1 = Except.error KeyErr.missingKey ∧
    (get_hls_key ⟨200, some ""⟩ urlOk "a.b.c").1 = Except.error KeyErr.missingKey ∧
    (get_hls_key ⟨200, some "abc123"⟩ urlOk "a.b.c").1 = Except.ok "abc123" :=
  ⟨(C5_key_resolver_response urlOk "a.b.c" ⟨404, some "abc123"⟩ "encrypted-deadbeef".data
      (by decide)).1 (by decide),
   (C5_key_resolver_response urlOk "a.b.c" ⟨200, none⟩ "encrypted-deadbeef".data
      (by decide)).2.1 (by decide) (Or.inl rfl),
   (C5_key_resolver_response urlOk "a.b.c" ⟨200, some ""⟩ "encrypted-deadbeef".data
      (by decide)).2.1 (by decide) (Or.inr rfl),
   (C5_key_resolver_response urlOk "a.b.c" ⟨200, some "abc123"⟩ "encrypted-deadbeef".data
      (by decide)).2.2 "abc123" (by decide) rfl (by decide)⟩

/-- C7 When no api token is set in process-wide state (unset, or set to the
empty string, which the falsy check also rejects), `process_appx_zip_logic`
returns the failure value immediately, issues no network call, and leaves
the filesystem untouched. -/
theorem C7_no_credential (env : Env) (zipurl : String) (fs : List String)
    (token : Option String) (h : token = none ∨ token = some "") :
    process_appx_zip_logic env token zipurl fs = (none, [], fs) := by
  cases h with
  | inl h2 => subst h2; rfl
  | inr h2 => subst h2; simp [process_appx_zip_logic]

theorem C7_witness :
    process_appx_zip_logic envOk none urlOk [] = (none, [], []) :=
  C7_no_credential envOk urlOk [] none (Or.inl rfl)

/-- C9 The result of the Segment Transformer, both the returned path list
and the filesystem effect, does not depend on the key argument: the
source accepts `hls_key` but never uses it. -/
theorem C9_transform_key_independent (ro : String → String → Bool)
    (paths : List String) (k1 k2 : String) (fs : List String) :
    decrypt_files_placeholder ro paths k1 fs = decrypt_files_placeholder ro paths k2 fs := by
  induction paths generalizing fs with
  | nil => rfl
  | cons p rest ih =>
    simp only [decrypt_files_placeholder]
    by_cases h1 : pyEndsWith p ".tsa" = true
    · by_cases h2 : ro p (pyReplaceTsaMp4 p) = true
      · simp [h1, h2, ih]
      · rw [Bool.not_eq_true] at h2
        simp [h1, h2, ih]
    · rw [Bool.not_eq_true] at h1
      simp [h1, ih]

/-- C10 The Segment Transformer returns a list of exactly the length of its
input, in input order; an input path that does not end in the marker
extension is returned unchanged at its position and survives on disk, and
a path whose rename fails is also returned unchanged at its position. -/
theorem C10_transform_shape (ro : String → String → Bool) (paths : List String)
    (key : String) (fs : List String) :
    (decrypt_files_placeholder ro paths key fs).1.length = paths.length ∧
    (∀ (i : Nat) (p2 : String), paths[i]? = some p2 →
      (pyEndsWith p2 ".tsa" = false →
        (decrypt_files_placeholder ro paths key fs).1[i]? = some p2) ∧
      (ro p2 (pyReplaceTsaMp4 p2) = false →
        (decrypt_files_placeholder ro paths key fs).1[i]? = some p2)) ∧
    (∀ x ∈ fs, pyEndsWith x ".tsa" = false →
      x ∈ (decrypt_files_placeholder ro paths key fs).2) := by
  refine ⟨?_, ?_, ?_⟩
  · rw [decrypt_fst]
    simp
  · intro i p2 hp2
    constructor
    · intro h
      rw [decrypt_fst, List.getElem?_map, hp2]
      simp [h]
    · intro h
      rw [decrypt_fst, List.getElem?_map, hp2]
      simp [h]
  · intro x hx hxe
    exact decrypt_snd_mem ro paths key fs x hx hxe

theorem C10_witness :
    (decrypt_files_placeholder (fun _ _ => false) ["a.txt", "b.tsa"] "k" ["c.txt"]).1.length =
      (["a.txt", "b.tsa"] : List String).length ∧
    (decrypt_files_placeholder (fun _ _ => false) ["a.txt", "b.tsa"] "k" ["c.txt"]).1[0]? =
      some "a.txt" ∧
    (decrypt_files_placeholder (fun _ _ => false) ["a.txt", "b.tsa"] "k" ["c.txt"]).1[1]? =
      some "b.tsa" ∧
    "c.txt" ∈ (decrypt_files_placeholder (fun _ _ => false) ["a.txt", "b.tsa"] "k" ["c.txt"]).2 :=
  ⟨(C10_transform_shape (fun _ _ => false) ["a.txt", "b.tsa"] "k" ["c.txt"]).1,
   ((C10_transform_shape (fun _ _ => false) ["a.txt", "b.tsa"] "k" ["c.txt"]).2.1 0 "a.txt"
      rfl).1 (by decide),
   ((C10_transform_shape (fun _ _ => false) ["a.txt", "b.tsa"] "k" ["c.txt"]).2.1 1 "b.tsa"
      rfl).2 rfl,
   (C10_transform_shape (fun _ _ => false) ["a.txt", "b.tsa"] "k" ["c.txt"]).2.2 "c.txt"
      (by decide) (by decide)⟩

/-- C8 `set_api_token_handler` stores the stripped argument, overwriting any
prior token, exactly when splitting the argument on a dot yields three
segments; otherwise the reply is not the success reply and the stored
token is unchanged. -/
theorem C8_set_api_token (prior : Option String) (a : String) :
    ((splitOnDot a.data).length = 3 →
      set_api_token_handler prior (some a) = (some (pyStrip a), Reply.confirmToken)) ∧
    ((splitOnDot a.data).length ≠ 3 →
      (set_api_token_handler prior (some a)).1 = prior ∧
      (set_api_token_handler prior (some a)).2 ≠ Reply.confirmToken) := by
  constructor
  · intro h
    have ha : a ≠ "" := by
      intro h2
      subst h2
      exact absurd h (by decide)
    simp [set_api_token_handler, ha, h]
  · intro h
    by_cases ha : a = ""
    · subst ha
      refine ⟨rfl, by simp [set_api_token_handler]⟩
    · simp [set_api_token_handler, ha, h]

theorem C8_witness :
    set_api_token_handler (some "x.y.z") (some "a.b.c") =
      (some (pyStrip "a.b.c"), Reply.confirmToken) ∧
    (set_api_token_handler (some "x.y.z") (some "not.a.jwt.token")).1 = some "x.y.z" ∧
    (set_api_token_handler (some "x.y.z") (some "not.a.jwt.token")).2 ≠ Reply.confirmToken :=
  ⟨(C8_set_api_token (some "x.y.z") "a.b.c").1 (by decide),
   ((C8_set_api_token (some "x.y.z") "not.a.jwt.token").2 (by decide)).1,
   ((C8_set_api_token (some "x.y.z") "not.a.jwt.token").2 (by decide)).2⟩

/-- C3 counterexample: on the path `"seg.tsa.tsa"` (which ends in the marker
extension) the transformer produces `"seg.mp4.mp4"`, because the source
uses `str.replace`, which substitutes every occurrence of `".tsa"`; the
claimed output, the path with only the final extension swapped and the
rest unchanged, is `"seg.tsa.mp4"`, so the claim as stated is false. -/
theorem C3_counterexample :
    (decrypt_files_placeholder (fun _ _ => true) ["seg.tsa.tsa"] "key0" ["seg.tsa.tsa"]).1 =
      ["seg.mp4.mp4"] ∧
    specSwapExt "seg.tsa.tsa" = "seg.tsa.mp4" ∧
    (decrypt_files_placeholder (fun _ _ => true) ["seg.tsa.tsa"] "key0" ["seg.tsa.tsa"]).1 ≠
      [specSwapExt "seg.tsa.tsa"] := by decide

/-- C3 amended: for input paths ending in the marker extension, a successful
transform renames each path to the path with every occurrence of the
substring `".tsa"` replaced by `".mp4"` (which swaps the final extension
whenever `".tsa"` occurs only there); the output has one path per input,
each ending in `".mp4"`, and the original marker-extension names are no
longer on the filesystem. -/
theorem C3_amended_transform (ro : String → String → Bool) (paths : List String)
    (key : String) (fs : List String)
    (hall : ∀ p ∈ paths, pyEndsWith p ".tsa" = true)
    (hok : ∀ p ∈ paths, ro p (pyReplaceTsaMp4 p) = true)
    (hnd : fs.Nodup) :
    (decrypt_files_placeholder ro paths key fs).1 = paths.map pyReplaceTsaMp4 ∧
    (decrypt_files_placeholder ro paths key fs).1.length = paths.length ∧
    (∀ q ∈ (decrypt_files_placeholder ro paths key fs).1, pyEndsWith q ".mp4" = true) ∧
    (∀ p ∈ paths, p ∉ (decrypt_files_placeholder ro paths key fs).2) := by
  have h1 : (decrypt_files_placeholder ro paths key fs).1 = paths.map pyReplaceTsaMp4 := by
    rw [decrypt_fst]
    apply List.map_congr_left
    intro p hp
    simp [hall p hp, hok p hp]
  refine ⟨h1, by rw [h1]; simp, ?_, ?_⟩
  · intro q hq
    rw [h1] at hq
    obtain ⟨p, hp, hpe⟩ := List.mem_map.mp hq
    subst hpe
    exact pyReplaceTsaMp4_endsWith p (hall p hp)
  · intro p hp
    exact decrypt_removed ro paths key fs p hall hok (hall p hp) (Or.inl hp)
      (List.nodup_iff_count_le_one.mp hnd p)

theorem C3_amended_witness :
    (decrypt_files_placeholder (fun _ _ => true) ["/w/seg1.tsa", "/w/seg2.tsa"] "k"
        ["/w/seg1.tsa", "/w/seg2.tsa", "/w/notes.txt"]).1 =
      (["/w/seg1.tsa", "/w/seg2.tsa"] : List String).map pyReplaceTsaMp4 ∧
    "/w/seg1.tsa" ∉ (decrypt_files_placeholder (fun _ _ => true) ["/w/seg1.tsa", "/w/seg2.tsa"]
        "k" ["/w/seg1.tsa", "/w/seg2.tsa", "/w/notes.txt"]).2 :=
  ⟨(C3_amended_transform (fun _ _ => true) ["/w/seg1.tsa", "/w/seg2.tsa"] "k"
      ["/w/seg1.tsa", "/w/seg2.tsa", "/w/notes.txt"] (by decide) (by decide) (by decide)).1,
   (C3_amended_transform (fun _ _ => true) ["/w/seg1.tsa", "/w/seg2.tsa"] "k"
      ["/w/seg1.tsa", "/w/seg2.tsa", "/w/notes.txt"] (by decide) (by decide) (by decide)).2.2.2
      "/w/seg1.tsa" (by decide)⟩

/-- C2 The scratch artifacts of a run, the downloaded archive path and the
extracted tree, lie under the single temporary directory the run
allocates; and provided that directory was freshly named (no pre-existing
path lies under it), no path under it exists any more after
`process_appx_zip_logic` returns, on the success path and on every
failure path. -/
theorem C2_scoped_workspace (env : Env) (token : Option String) (zipurl : String)
    (fs : List String) (hfresh : ∀ p ∈ fs, isUnder env.tempDir p = false) :
    (∀ p ∈ (process_appx_zip_logic env token zipurl fs).2.2, isUnder env.tempDir p = false) ∧
    isUnder env.tempDir (joinPath env.tempDir "downloaded.zip") = true ∧
    isUnder env.tempDir (joinPath env.tempDir "extracted") = true ∧
    (∀ wdl, env.extractResult = some wdl → ∀ wd ∈ wdl, ∀ f ∈ wd.files,
      isUnder env.tempDir
        (joinPath (wdRoot (joinPath env.tempDir "extracted") wd.relPath) f) = true) := by
  refine ⟨?_, isUnder_joinPath_self _ _, isUnder_joinPath_self _ _, ?_⟩
  · intro p hp
    rcases token with _ | tok
    · exact hfresh p hp
    · unfold process_appx_zip_logic at hp
      dsimp only at hp
      by_cases ht : tok = ""
      · rw [if_pos ht] at hp
        exact hfresh p hp
      · rw [if_neg ht] at hp
        rcases hk : get_hls_key env.resp zipurl tok with ⟨res, calls⟩
        rw [hk] at hp
        cases res with
        | error e => exact hfresh p hp
        | ok hls_key =>
          dsimp only at hp
          cases hdl : env.downloadOk with
          | false =>
            rw [hdl, if_pos rfl] at hp
            exact fsCleanTemp_not_under _ _ p hp
          | true =>
            rw [hdl, if_neg (by decide : ¬(true = false))] at hp
            rcases hex : env.extractResult with _ | wdl
            · rw [hex] at hp
              exact fsCleanTemp_not_under _ _ p hp
            · rw [hex] at hp
              exact fsCleanTemp_not_under _ _ p hp
  · intro wdl _ wd _ f _
    exact isUnder_joinPath _ _ _ (isUnder_wdRoot _ _ _ (isUnder_joinPath_self _ _))

theorem C2_witness :
    isUnder envOk.tempDir "/somewhere/file.txt" = false ∧
    isUnder envOk.tempDir (joinPath envOk.tempDir "downloaded.zip") = true :=
  ⟨(C2_scoped_workspace envOk (some "a.b.c") urlOk ["/somewhere/file.txt"] (by decide)).1
      "/somewhere/file.txt" (by decide),
   (C2_scoped_workspace envOk (some "a.b.c") urlOk ["/somewhere/file.txt"] (by decide)).2.1⟩

/-- C6 The Segment Locator returns exactly the regular files of the walked
tree whose names end in an extension of the allow-list, here `".tsa"`:
it equals the name-filtered list of all files, so it has one entry per
marker-named file; and an empty result is not an error, the Orchestrator
still returns the produced output path. -/
theorem C6_segment_locator (w : List (String × List String)) :
    locateFromWalk [".tsa"] w =
      (walkNamedFiles w).filterMap
        (fun rn => if pyEndsWith rn.2 ".tsa" then some (joinPath rn.1 rn.2) else none) ∧
    (locateFromWalk [".tsa"] w).length =
      (walkNamedFiles w).countP (fun rn => pyEndsWith rn.2 ".tsa") ∧
    (∀ (env : Env) (tok zipurl : String) (fs : List String) (k : String)
      (calls : List NetCall) (wdl : List WalkDir),
      tok ≠ "" →
      get_hls_key env.resp zipurl tok = (Except.ok k, calls) →
      env.downloadOk = true →
      env.extractResult = some wdl →
      locateFromWalk [".tsa"]
        (wdl.map (fun wd => (wdRoot (joinPath env.tempDir "extracted") wd.relPath, wd.files))) =
        [] →
      (process_appx_zip_logic env (some tok) zipurl fs).1 =
        some (joinPath (joinPath env.tempDir "extracted") "simulated_output.mkv")) := by
  have hme : ∀ n, matchesExt [".tsa"] n = pyEndsWith n ".tsa" := by
    intro n
    simp [matchesExt]
  have h1 : locateFromWalk [".tsa"] w =
      (walkNamedFiles w).filterMap
        (fun rn => if pyEndsWith rn.2 ".tsa" then some (joinPath rn.1 rn.2) else none) := by
    induction w with
    | nil => rfl
    | cons rf rest ih =>
      obtain ⟨root, files⟩ := rf
      have h2 : walkNamedFiles ((root, files) :: rest) =
          files.map (fun f => (root, f)) ++ walkNamedFiles rest := by
        simp [walkNamedFiles]
      rw [locateFromWalk, h2, List.filterMap_append, ih, collectDir_eq]
      congr 1
      simp only [hme]
  refine ⟨h1, ?_, ?_⟩
  · rw [h1]
    exact length_filterMap_guard _ _ _
  · intro env tok zipurl fs k calls wdl htok hkey hdl hex hseg
    unfold process_appx_zip_logic
    dsimp only
    rw [if_neg htok, hkey]
    dsimp only
    rw [hdl, if_neg (by decide : ¬(true = false)), hex]

theorem C6_witness :
    locateFromWalk [".tsa"] [("/r", ["a.tsa", "b.txt"]), ("/r/s", ["c.tsa"])] =
      (walkNamedFiles [("/r", ["a.tsa", "b.txt"]), ("/r/s", ["c.tsa"])]).filterMap
        (fun rn => if pyEndsWith rn.2 ".tsa" then some (joinPath rn.1 rn.2) else none) ∧
    (process_appx_zip_logic envEmptySeg (some "a.b.c") urlOk []).1 =
      some (joinPath (joinPath envEmptySeg.tempDir "extracted") "simulated_output.mkv") :=
  ⟨(C6_segment_locator [("/r", ["a.tsa", "b.txt"]), ("/r/s", ["c.tsa"])]).1,
   (C6_segment_locator []).2.2 envEmptySeg "a.b.c" urlOk [] "abc123"
      [NetCall.keyFetch "encrypted-deadbeef" "a.b.c"] [⟨[], ["notes.txt"]⟩]
      (by decide) (by decide) rfl rfl (by decide)⟩

/-- C1 End-to-end evaluation at the scenario of the spec (credential set,
key fetch succeeding, archive expanding to two marker files and one other
file): the Orchestrator returns the path of the produced output file, but
that path lies inside the temporary workspace, which is deleted before
the return, so the file no longer exists; the Command Surface therefore
takes its failure branch and never delivers the document. -/
theorem C1_output_deleted_before_delivery :
    (process_appx_zip_logic envOk (some "a.b.c") urlOk []).1 =
      some (joinPath (joinPath envOk.tempDir "extracted") "simulated_output.mkv") ∧
    joinPath (joinPath envOk.tempDir "extracted") "simulated_output.mkv" ∉
      (process_appx_zip_logic envOk (some "a.b.c") urlOk []).2.2 ∧
    (download_command_handler envOk (some "a.b.c") (some urlOk) []).1 =
      [Reply.processing, Reply.failure] := by decide
